import Mathlib

/- Shallow embedding of the trie library in src/src/lib.rs (crate trie_again).

   Words are modelled as lists of characters (Rust iterates `word.chars()`).
   The `HashMap<char, Node>` of each node is modelled as an association list
   with unique keys; uniqueness of keys is captured by the predicate `Node.WF`
   (a `HashMap` can never hold two bindings of the same key).
   The Rust source mixes two measures of a word inside `delete`: the base case
   compares the recursion index against `word.len()` (UTF-8 *bytes*) while the
   per-level lookup uses `word.chars().nth(index)` (*characters*) followed by
   `.unwrap()`.  The embedding keeps both measures: `byteLen` is the UTF-8 byte
   length of a word, and a failed `.unwrap()` is the explicit result
   `DelRes.panicked`. -/

inductive Node where
  | mk (children : List (Char × Node)) (is_end : Bool)

def Node.children : Node → List (Char × Node)
  | .mk l _ => l

def Node.is_end : Node → Bool
  | .mk _ e => e

/-- HashMap::get on the association-list model. -/
def findChild (c : Char) : List (Char × Node) → Option Node
  | [] => none
  | (d, m) :: t => if d = c then some m else findChild c t

/-- Entry::or_insert / in-place update of the binding of key c. -/
def updateChild : List (Char × Node) → Char → Node → List (Char × Node)
  | [], c, n => [(c, n)]
  | (d, m) :: t, c, n => if d = c then (c, n) :: t else (d, m) :: updateChild t c n

/-- OccupiedEntry::remove_entry: drop the binding of key c. -/
def removeChild : List (Char × Node) → Char → List (Char × Node)
  | [], _ => []
  | (d, m) :: t, c => if d = c then t else (d, m) :: removeChild t c

/-- Two's-complement reduction of an integer into the i32 range, the
release-build overflow behavior of Rust's i32 arithmetic (a debug build would
panic at the overflowing operation instead of wrapping). -/
def i32wrap (x : Int) : Int := (x + 2147483648) % 4294967296 - 2147483648

/-- The type of the source's count field: a 32-bit signed integer, modelled as
an integer confined to the i32 range so that every model state is a real i32
state. -/
def I32 : Type := { x : Int // -2147483648 ≤ x ∧ x < 2147483648 }

def i32ofInt (x : Int) : I32 :=
  ⟨i32wrap x, by unfold i32wrap; omega⟩

structure Trie where
  root : Node
  count : I32

/-- Trie::default() (both derived Default impls). -/
def Trie.default : Trie := ⟨Node.mk [] false, i32ofInt 0⟩

/-- Trie::add, lib.rs lines 27-37: descend creating missing children, then set
is_end on the final node and increment count unconditionally (self.count += 1
is i32 addition, hence wrapping in release builds). -/
def Node.addWord : Node → List Char → Node
  | n, [] => Node.mk n.children true
  | n, c :: cs =>
      let child := match findChild c n.children with
        | some m => m
        | none => Node.mk [] false
      Node.mk (updateChild n.children c (child.addWord cs)) n.is_end

def Trie.add (t : Trie) (w : List Char) : Trie :=
  ⟨t.root.addWord w, i32ofInt (t.count.val + 1)⟩

/-- Trie::search, lib.rs lines 41-51: descend, false on a missing child,
otherwise the is_end flag of the final node. -/
def Node.searchFrom : Node → List Char → Bool
  | n, [] => n.is_end
  | n, c :: cs =>
      match findChild c n.children with
      | some m => m.searchFrom cs
      | none => false

def Trie.search (t : Trie) (w : List Char) : Bool :=
  t.root.searchFrom w

inductive TrieError where
  | wordNotFound
deriving DecidableEq

/-- Result of one call of delete_recursive.  `err` and `ok` carry the node the
Rust code has mutated in place; `panicked` is the `.unwrap()` of `None`. -/
inductive DelRes where
  | panicked
  | err (node : Node)
  | ok (shouldDelete : Bool) (node : Node)

/-- word.len() in Rust: the UTF-8 byte length of the word. -/
def byteLen (w : List Char) : Nat := (w.map Char.utf8Size).sum

/-- delete_recursive, lib.rs lines 56-77.  The base-case test `index == word.len()`
counts bytes, the lookup `word.chars().nth(index).unwrap()` counts characters. -/
def delete_recursive (node : Node) (word : List Char) (index : Nat) : DelRes :=
  if index = byteLen word then
    if !node.is_end then DelRes.err node
    else DelRes.ok node.children.isEmpty (Node.mk node.children false)
  else
    match hw : word.get? index with
    | none => DelRes.panicked
    | some c =>
      match findChild c node.children with
      | some next =>
        match delete_recursive next word (index + 1) with
        | DelRes.panicked => DelRes.panicked
        | DelRes.err next2 =>
            DelRes.err (Node.mk (updateChild node.children c next2) node.is_end)
        | DelRes.ok sd next2 =>
            if sd then
              DelRes.ok ((removeChild node.children c).isEmpty && !node.is_end)
                (Node.mk (removeChild node.children c) node.is_end)
            else
              DelRes.ok false (Node.mk (updateChild node.children c next2) node.is_end)
      | none => DelRes.err node
termination_by byteLen word - index
decreasing_by
  have hidx : index < word.length := (List.get?_eq_some.mp hw).1
  have hle : ∀ u : List Char, u.length ≤ byteLen u := by
    intro u
    induction u with
    | nil => simp [byteLen]
    | cons a as ih =>
        have := a.utf8Size_pos
        simp only [byteLen, List.map_cons, List.sum_cons, List.length_cons] at ih ⊢
        omega
  have := hle word
  omega

inductive DeleteOutcome where
  | panicked
  | err (e : TrieError) (t : Trie)
  | ok (t : Trie)

/-- Trie::delete, lib.rs lines 55 and 78-84: run delete_recursive from the root
and decrement count (i32 subtraction) exactly when it succeeded. -/
def Trie.delete (t : Trie) (w : List Char) : DeleteOutcome :=
  match delete_recursive t.root w 0 with
  | DelRes.panicked => DeleteOutcome.panicked
  | DelRes.err root2 => DeleteOutcome.err TrieError.wordNotFound ⟨root2, t.count⟩
  | DelRes.ok _ root2 => DeleteOutcome.ok ⟨root2, i32ofInt (t.count.val - 1)⟩

/-- Restatement of delete_recursive by structural recursion on the remaining
character suffix.  It coincides with delete_recursive exactly when the byte
length of the word equals its character count (proved below); the mismatch of
the two measures in the source is what makes them differ on multi-byte words. -/
def delRecList (node : Node) : List Char → DelRes
  | [] =>
      if !node.is_end then DelRes.err node
      else DelRes.ok node.children.isEmpty (Node.mk node.children false)
  | c :: rest =>
      match findChild c node.children with
      | some next =>
        match delRecList next rest with
        | DelRes.panicked => DelRes.panicked
        | DelRes.err next2 =>
            DelRes.err (Node.mk (updateChild node.children c next2) node.is_end)
        | DelRes.ok sd next2 =>
            if sd then
              DelRes.ok ((removeChild node.children c).isEmpty && !node.is_end)
                (Node.mk (removeChild node.children c) node.is_end)
            else
              DelRes.ok false (Node.mk (updateChild node.children c next2) node.is_end)
      | none => DelRes.err node

def DelRes.isOk : DelRes → Bool
  | DelRes.ok _ _ => true
  | _ => false

def DelRes.isErr : DelRes → Bool
  | DelRes.err _ => true
  | _ => false

def DeleteOutcome.isOk : DeleteOutcome → Bool
  | DeleteOutcome.ok _ => true
  | _ => false

def DeleteOutcome.isErr : DeleteOutcome → Bool
  | DeleteOutcome.err _ _ => true
  | _ => false

mutual

/-- Number of nodes in the subtree rooted here (the node itself included)
whose is_end flag is true. -/
def Node.endCount : Node → Nat
  | Node.mk l e => (if e then 1 else 0) + childrenEndCount l

def childrenEndCount : List (Char × Node) → Nat
  | [] => 0
  | (_, m) :: t => m.endCount + childrenEndCount t

end

/-- Follow the exact character path from a node; some final node or none. -/
def Node.findPath : Node → List Char → Option Node
  | n, [] => some n
  | n, c :: cs =>
      match findChild c n.children with
      | some m => m.findPath cs
      | none => none

/-- Well-formedness of the association-list model: every children list binds
each character at most once, as a Rust HashMap does by construction. -/
inductive Node.WF : Node → Prop where
  | mk (l : List (Char × Node)) (e : Bool) :
      (l.map Prod.fst).Nodup → (∀ p ∈ l, Node.WF p.2) → Node.WF (Node.mk l e)

/-- No node strictly below this one is both childless and non-end (the root
itself is exempt, matching the data-model invariant of the spec). -/
inductive NoDeadLeaves : Node → Prop where
  | mk (l : List (Char × Node)) (e : Bool) :
      (∀ p ∈ l, p.2.is_end = true ∨ p.2.children ≠ []) →
      (∀ p ∈ l, NoDeadLeaves p.2) →
      NoDeadLeaves (Node.mk l e)

/-- Trie states reachable from Trie::default() by add and completed delete
calls, where every add step additionally satisfies P. -/
inductive ReachableP (P : Trie → List Char → Prop) : Trie → Prop where
  | empty : ReachableP P Trie.default
  | addStep (t : Trie) (w : List Char) :
      ReachableP P t → P t w → ReachableP P (t.add w)
  | delOk (t t2 : Trie) (w : List Char) :
      ReachableP P t → t.delete w = DeleteOutcome.ok t2 → ReachableP P t2
  | delErr (t t2 : Trie) (w : List Char) (e : TrieError) :
      ReachableP P t → t.delete w = DeleteOutcome.err e t2 → ReachableP P t2

/-- Trie states reachable by any adds and completed deletes. -/
def Reachable : Trie → Prop := ReachableP (fun _ _ => True)

/-- Reachable with no duplicate adds: a word is only added while not stored. -/
def ReachableND : Trie → Prop := ReachableP (fun t w => t.search w = false)

/-- Reachable without ever adding the empty word. -/
def ReachableNE : Trie → Prop := ReachableP (fun _ w => w ≠ [])

inductive Op where
  | addOp (w : List Char)
  | delOp (w : List Char)

/-- Run a sequence of add and delete calls, counting the adds and the
successful deletes; none when a delete panics (the program aborts). -/
def runOps : Trie → List Op → Option (Trie × Nat × Nat)
  | t, [] => some (t, 0, 0)
  | t, Op.addOp w :: ops =>
      (runOps (t.add w) ops).map (fun r => (r.1, r.2.1 + 1, r.2.2))
  | t, Op.delOp w :: ops =>
      match t.delete w with
      | DeleteOutcome.panicked => none
      | DeleteOutcome.err _ t2 => runOps t2 ops
      | DeleteOutcome.ok t2 =>
          (runOps t2 ops).map (fun r => (r.1, r.2.1, r.2.2 + 1))

theorem Node.eta (n : Node) : Node.mk n.children n.is_end = n := by
  cases n
  rfl

theorem Node.children_mk (l : List (Char × Node)) (e : Bool) :
    (Node.mk l e).children = l := rfl

theorem Node.is_end_mk (l : List (Char × Node)) (e : Bool) :
    (Node.mk l e).is_end = e := rfl

theorem findChild_updateChild_self (l : List (Char × Node)) (c : Char) (n : Node) :
    findChild c (updateChild l c n) = some n := by
  induction l with
  | nil => simp [updateChild, findChild]
  | cons p t ih =>
      obtain ⟨d, m⟩ := p
      by_cases h : d = c
      · simp [updateChild, h, findChild]
      · simp [updateChild, h, findChild, ih]

theorem findChild_updateChild_ne (l : List (Char × Node)) {d c : Char} (n : Node)
    (h : d ≠ c) : findChild d (updateChild l c n) = findChild d l := by
  induction l with
  | nil => simp [updateChild, findChild, Ne.symm h]
  | cons p t ih =>
      obtain ⟨a, m⟩ := p
      by_cases ha : a = c
      · subst ha
        simp [updateChild, findChild, Ne.symm h]
      · simp only [updateChild, if_neg ha, findChild]
        by_cases had : a = d <;> simp [had, ih]

theorem findChild_removeChild_ne (l : List (Char × Node)) {d c : Char}
    (h : d ≠ c) : findChild d (removeChild l c) = findChild d l := by
  induction l with
  | nil => simp [removeChild]
  | cons p t ih =>
      obtain ⟨a, m⟩ := p
      by_cases ha : a = c
      · subst ha
        simp [removeChild, findChild, Ne.symm h]
      · simp only [removeChild, if_neg ha, findChild]
        by_cases had : a = d <;> simp [had, ih]

theorem findChild_eq_none_of_not_mem {l : List (Char × Node)} {c : Char}
    (h : c ∉ l.map Prod.fst) : findChild c l = none := by
  induction l with
  | nil => rfl
  | cons p t ih =>
      obtain ⟨a, m⟩ := p
      simp only [List.map_cons, List.mem_cons, not_or] at h
      have ha : a ≠ c := fun hac => h.1 hac.symm
      simp [findChild, ha, ih h.2]

theorem findChild_removeChild_self (l : List (Char × Node)) (c : Char)
    (h : (l.map Prod.fst).Nodup) : findChild c (removeChild l c) = none := by
  induction l with
  | nil => rfl
  | cons p t ih =>
      obtain ⟨a, m⟩ := p
      simp only [List.map_cons, List.nodup_cons] at h
      by_cases ha : a = c
      · subst ha
        simpa [removeChild] using findChild_eq_none_of_not_mem h.1
      · simp [removeChild, ha, findChild, ha, ih h.2]

theorem findChild_mem {l : List (Char × Node)} {c : Char} {n : Node}
    (h : findChild c l = some n) : (c, n) ∈ l := by
  induction l with
  | nil => simp [findChild] at h
  | cons p t ih =>
      obtain ⟨a, m⟩ := p
      by_cases ha : a = c
      · subst ha
        simp [findChild] at h
        simp [h]
      · simp only [findChild, if_neg ha] at h
        exact List.mem_cons_of_mem _ (ih h)

theorem updateChild_ne_nil (l : List (Char × Node)) (c : Char) (n : Node) :
    updateChild l c n ≠ [] := by
  cases l with
  | nil => simp [updateChild]
  | cons p t =>
      obtain ⟨a, m⟩ := p
      by_cases ha : a = c <;> simp [updateChild, ha]

theorem updateChild_self_id {l : List (Char × Node)} {c : Char} {n : Node}
    (h : findChild c l = some n) : updateChild l c n = l := by
  induction l with
  | nil => simp [findChild] at h
  | cons p t ih =>
      obtain ⟨a, m⟩ := p
      by_cases ha : a = c
      · subst ha
        simp [findChild] at h
        simp [updateChild, h]
      · simp only [findChild, if_neg ha] at h
        simp [updateChild, ha, ih h]

theorem childrenEndCount_updateChild {l : List (Char × Node)} {c : Char} {m : Node}
    (h : findChild c l = some m) (n : Node) :
    childrenEndCount (updateChild l c n) + m.endCount
      = childrenEndCount l + n.endCount := by
  induction l with
  | nil => simp [findChild] at h
  | cons p t ih =>
      obtain ⟨a, m'⟩ := p
      by_cases ha : a = c
      · subst ha
        simp [findChild] at h
        subst h
        simp [updateChild, childrenEndCount]
        omega
      · simp only [findChild, if_neg ha] at h
        simp only [updateChild, if_neg ha, childrenEndCount]
        have := ih h
        omega

theorem childrenEndCount_updateChild_new {l : List (Char × Node)} {c : Char}
    (h : findChild c l = none) (n : Node) :
    childrenEndCount (updateChild l c n) = childrenEndCount l + n.endCount := by
  induction l with
  | nil => simp [updateChild, childrenEndCount]
  | cons p t ih =>
      obtain ⟨a, m'⟩ := p
      by_cases ha : a = c
      · subst ha
        simp [findChild] at h
      · simp only [findChild, if_neg ha] at h
        simp only [updateChild, if_neg ha, childrenEndCount, ih h]
        omega

theorem childrenEndCount_removeChild {l : List (Char × Node)} {c : Char} {m : Node}
    (h : findChild c l = some m) :
    childrenEndCount (removeChild l c) + m.endCount = childrenEndCount l := by
  induction l with
  | nil => simp [findChild] at h
  | cons p t ih =>
      obtain ⟨a, m'⟩ := p
      by_cases ha : a = c
      · subst ha
        simp [findChild] at h
        subst h
        simp [removeChild, childrenEndCount]
        omega
      · simp only [findChild, if_neg ha] at h
        simp only [removeChild, if_neg ha, childrenEndCount]
        have := ih h
        omega

theorem keys_updateChild_found {l : List (Char × Node)} {c : Char} {m : Node}
    (h : findChild c l = some m) (n : Node) :
    (updateChild l c n).map Prod.fst = l.map Prod.fst := by
  induction l with
  | nil => simp [findChild] at h
  | cons p t ih =>
      obtain ⟨a, m'⟩ := p
      by_cases ha : a = c
      · subst ha
        simp [updateChild]
      · simp only [findChild, if_neg ha] at h
        simp [updateChild, ha, ih h]

theorem keys_updateChild_new {l : List (Char × Node)} {c : Char}
    (h : findChild c l = none) (n : Node) :
    (updateChild l c n).map Prod.fst = l.map Prod.fst ++ [c] := by
  induction l with
  | nil => simp [updateChild]
  | cons p t ih =>
      obtain ⟨a, m'⟩ := p
      by_cases ha : a = c
      · subst ha
        simp [findChild] at h
      · simp only [findChild, if_neg ha] at h
        simp [updateChild, ha, ih h]

theorem mem_keys_of_mem_keys_removeChild {l : List (Char × Node)} {c d : Char}
    (h : d ∈ (removeChild l c).map Prod.fst) : d ∈ l.map Prod.fst := by
  induction l with
  | nil => simpa [removeChild] using h
  | cons p t ih =>
      obtain ⟨a, m⟩ := p
      by_cases ha : a = c
      · subst ha
        have hr : removeChild ((a, m) :: t) a = t := by simp [removeChild]
        rw [hr] at h
        simp only [List.map_cons, List.mem_cons]
        exact Or.inr h
      · simp only [removeChild, if_neg ha, List.map_cons, List.mem_cons] at h
        rcases h with h | h
        · simp [h]
        · simp [ih h]

theorem nodup_keys_removeChild {l : List (Char × Node)} (c : Char)
    (h : (l.map Prod.fst).Nodup) : ((removeChild l c).map Prod.fst).Nodup := by
  induction l with
  | nil => simp [removeChild]
  | cons p t ih =>
      obtain ⟨a, m⟩ := p
      simp only [List.map_cons, List.nodup_cons] at h
      by_cases ha : a = c
      · subst ha
        simpa [removeChild] using h.2
      · simp only [removeChild, if_neg ha, List.map_cons, List.nodup_cons]
        exact ⟨fun hmem => h.1 (mem_keys_of_mem_keys_removeChild hmem), ih h.2⟩

theorem mem_of_mem_removeChild {l : List (Char × Node)} {c : Char} {p : Char × Node}
    (h : p ∈ removeChild l c) : p ∈ l := by
  induction l with
  | nil => simpa [removeChild] using h
  | cons q t ih =>
      obtain ⟨a, m⟩ := q
      by_cases ha : a = c
      · subst ha
        have hr : removeChild ((a, m) :: t) a = t := by simp [removeChild]
        rw [hr] at h
        exact List.mem_cons_of_mem _ h
      · simp only [removeChild, if_neg ha, List.mem_cons] at h
        rcases h with h | h
        · simp [h]
        · simp [ih h]

theorem mem_updateChild {l : List (Char × Node)} {c : Char} {n : Node} {p : Char × Node}
    (h : p ∈ updateChild l c n) : p ∈ l ∨ p = (c, n) := by
  induction l with
  | nil => simpa [updateChild] using h
  | cons q t ih =>
      obtain ⟨a, m⟩ := q
      by_cases ha : a = c
      · subst ha
        have hr : updateChild ((a, m) :: t) a n = (a, n) :: t := by simp [updateChild]
        rw [hr] at h
        rcases List.mem_cons.mp h with h | h
        · exact Or.inr h
        · exact Or.inl (List.mem_cons_of_mem _ h)
      · simp only [updateChild, if_neg ha, List.mem_cons] at h
        rcases h with h | h
        · exact Or.inl (by simp [h])
        · rcases ih h with h | h
          · exact Or.inl (List.mem_cons_of_mem _ h)
          · exact Or.inr h

theorem searchFrom_leaf (u : List Char) : (Node.mk [] false).searchFrom u = false := by
  cases u <;> simp [Node.searchFrom, Node.is_end, Node.children, findChild]

theorem searchFrom_dead {n : Node} (hc : n.children = []) (he : n.is_end = false)
    (u : List Char) : n.searchFrom u = false := by
  obtain ⟨l, e⟩ := n
  simp only [Node.children_mk] at hc
  simp only [Node.is_end_mk] at he
  subst hc
  subst he
  exact searchFrom_leaf u

theorem children_addWord_cons (n : Node) (a : Char) (as : List Char) :
    (n.addWord (a :: as)).children
      = updateChild n.children a
          ((match findChild a n.children with
            | some m => m
            | none => Node.mk [] false).addWord as) := rfl

theorem is_end_addWord_cons (n : Node) (a : Char) (as : List Char) :
    (n.addWord (a :: as)).is_end = n.is_end := rfl

/-- Adding v makes exactly v searchable, on top of what already was. -/
theorem searchFrom_addWord (n : Node) (v w : List Char) :
    (n.addWord v).searchFrom w = (decide (w = v) || n.searchFrom w) := by
  induction v generalizing n w with
  | nil =>
      cases w with
      | nil => simp [Node.addWord, Node.searchFrom, Node.is_end]
      | cons c cs => simp [Node.addWord, Node.searchFrom, Node.children]
  | cons a as ih =>
      cases w with
      | nil =>
          simp [Node.addWord, Node.searchFrom, Node.is_end]
      | cons c cs =>
          by_cases hca : c = a
          · subst hca
            cases hfc : findChild c n.children with
            | some m =>
                have h1 : (n.addWord (c :: as)).searchFrom (c :: cs)
                    = (m.addWord as).searchFrom cs := by
                  simp [Node.searchFrom, children_addWord_cons, hfc,
                    findChild_updateChild_self]
                have h2 : n.searchFrom (c :: cs) = m.searchFrom cs := by
                  simp [Node.searchFrom, hfc]
                rw [h1, h2, ih]
                by_cases hw : cs = as <;> simp [hw]
            | none =>
                have h1 : (n.addWord (c :: as)).searchFrom (c :: cs)
                    = ((Node.mk [] false).addWord as).searchFrom cs := by
                  simp [Node.searchFrom, children_addWord_cons, hfc,
                    findChild_updateChild_self]
                have h2 : n.searchFrom (c :: cs) = false := by
                  simp [Node.searchFrom, hfc]
                rw [h1, h2, ih]
                by_cases hw : cs = as <;> simp [hw, searchFrom_leaf]
          · have h1 : findChild c (n.addWord (a :: as)).children = findChild c n.children := by
              rw [children_addWord_cons]
              exact findChild_updateChild_ne _ _ hca
            have hne : ¬ (c :: cs = a :: as) := by simp [hca]
            cases hfc : findChild c n.children with
            | some m => simp [Node.searchFrom, h1, hfc, hne]
            | none => simp [Node.searchFrom, h1, hfc, hne]

theorem endCount_mk (l : List (Char × Node)) (e : Bool) :
    (Node.mk l e).endCount = (if e then 1 else 0) + childrenEndCount l := rfl

theorem endCount_eq (n : Node) :
    n.endCount = (if n.is_end then 1 else 0) + childrenEndCount n.children := by
  obtain ⟨l, e⟩ := n
  rfl

/-- add raises the subtree's number of end nodes by one exactly when the word
was not already searchable there; a duplicate add changes nothing. -/
theorem endCount_addWord (n : Node) (w : List Char) :
    (n.addWord w).endCount + (if n.searchFrom w then 1 else 0) = n.endCount + 1 := by
  induction w generalizing n with
  | nil =>
      obtain ⟨l, e⟩ := n
      cases e <;>
        simp [Node.addWord, Node.searchFrom, Node.is_end, Node.children, endCount_mk] <;>
        omega
  | cons a as ih =>
      cases hfc : findChild a n.children with
      | some m =>
          have hadd : n.addWord (a :: as)
              = Node.mk (updateChild n.children a (m.addWord as)) n.is_end := by
            simp [Node.addWord, hfc]
          have hcec := childrenEndCount_updateChild hfc (m.addWord as)
          have hs : n.searchFrom (a :: as) = m.searchFrom as := by
            simp [Node.searchFrom, hfc]
          have hihm := ih m
          rw [hadd, endCount_mk, hs, endCount_eq n]
          cases hie : n.is_end <;> cases hms : m.searchFrom as <;>
            simp [hms] at hihm ⊢ <;> omega
      | none =>
          have hadd : n.addWord (a :: as)
              = Node.mk (updateChild n.children a ((Node.mk [] false).addWord as))
                  n.is_end := by
            simp [Node.addWord, hfc]
          have hcec := childrenEndCount_updateChild_new hfc ((Node.mk [] false).addWord as)
          have hs : n.searchFrom (a :: as) = false := by
            simp [Node.searchFrom, hfc]
          have hfresh := ih (Node.mk [] false)
          rw [searchFrom_leaf] at hfresh
          simp only [endCount_mk, Node.children_mk, if_false] at hfresh
          simp only [childrenEndCount] at hfresh
          rw [hadd, endCount_mk, hs, endCount_eq n]
          cases hie : n.is_end <;> simp <;> omega

theorem findChild_ne_none_of_mem {l : List (Char × Node)} {c : Char}
    (h : c ∈ l.map Prod.fst) : findChild c l ≠ none := by
  induction l with
  | nil => simp at h
  | cons p t ih =>
      obtain ⟨a, m⟩ := p
      by_cases ha : a = c
      · simp [findChild, ha]
      · simp only [List.map_cons, List.mem_cons] at h
        rcases h with h | h
        · exact absurd h.symm ha
        · simpa [findChild, ha] using ih h

theorem wf_keys {n : Node} (h : n.WF) : (n.children.map Prod.fst).Nodup := by
  cases h with
  | mk l e hk hm => exact hk

theorem wf_members {n : Node} (h : n.WF) : ∀ p ∈ n.children, Node.WF p.2 := by
  cases h with
  | mk l e hk hm => exact hm

theorem wf_child {n : Node} (h : n.WF) {c : Char} {m : Node}
    (hfc : findChild c n.children = some m) : m.WF := by
  cases h with
  | mk l e hk hm => exact hm _ (findChild_mem hfc)

theorem wf_leaf : Node.WF (Node.mk [] false) := by
  refine Node.WF.mk _ _ ?_ ?_ <;> simp

theorem wf_addWord {n : Node} (w : List Char) (h : n.WF) : (n.addWord w).WF := by
  induction w generalizing n with
  | nil =>
      cases h with
      | mk l e hk hm => exact Node.WF.mk l true hk hm
  | cons a as ih =>
      cases hfc : findChild a n.children with
      | some m =>
          have hadd : n.addWord (a :: as)
              = Node.mk (updateChild n.children a (m.addWord as)) n.is_end := by
            simp [Node.addWord, hfc]
          rw [hadd]
          refine Node.WF.mk _ _ ?_ ?_
          · rw [keys_updateChild_found hfc]
            exact wf_keys h
          · intro p hp
            rcases mem_updateChild hp with hmem | heq
            · exact wf_members h p hmem
            · rw [heq]
              exact ih (wf_child h hfc)
      | none =>
          have hadd : n.addWord (a :: as)
              = Node.mk (updateChild n.children a ((Node.mk [] false).addWord as))
                  n.is_end := by
            simp [Node.addWord, hfc]
          rw [hadd]
          refine Node.WF.mk _ _ ?_ ?_
          · rw [keys_updateChild_new hfc]
            have hnm : a ∉ n.children.map Prod.fst :=
              fun hmem => findChild_ne_none_of_mem hmem hfc
            simp [List.nodup_append, wf_keys h, hnm]
          · intro p hp
            rcases mem_updateChild hp with hmem | heq
            · exact wf_members h p hmem
            · rw [heq]
              exact ih wf_leaf

theorem ndl_leaf : NoDeadLeaves (Node.mk [] false) := by
  refine NoDeadLeaves.mk _ _ ?_ ?_ <;> simp

theorem ndl_alive {n : Node} (h : NoDeadLeaves n) :
    ∀ p ∈ n.children, p.2.is_end = true ∨ p.2.children ≠ [] := by
  cases h with
  | mk l e h1 h2 => exact h1

theorem ndl_children {n : Node} (h : NoDeadLeaves n) :
    ∀ p ∈ n.children, NoDeadLeaves p.2 := by
  cases h with
  | mk l e h1 h2 => exact h2

theorem addWord_alive (n : Node) (w : List Char) :
    (n.addWord w).is_end = true ∨ (n.addWord w).children ≠ [] := by
  cases w with
  | nil => exact Or.inl rfl
  | cons a as =>
      right
      rw [children_addWord_cons]
      exact updateChild_ne_nil _ _ _

theorem ndl_addWord {n : Node} (w : List Char) (h : NoDeadLeaves n) :
    NoDeadLeaves (n.addWord w) := by
  induction w generalizing n with
  | nil =>
      cases h with
      | mk l e h1 h2 => exact NoDeadLeaves.mk l true h1 h2
  | cons a as ih =>
      cases hfc : findChild a n.children with
      | some m =>
          have hadd : n.addWord (a :: as)
              = Node.mk (updateChild n.children a (m.addWord as)) n.is_end := by
            simp [Node.addWord, hfc]
          rw [hadd]
          refine NoDeadLeaves.mk _ _ ?_ ?_
          · intro p hp
            rcases mem_updateChild hp with hmem | heq
            · exact ndl_alive h p hmem
            · rw [heq]
              exact addWord_alive m as
          · intro p hp
            rcases mem_updateChild hp with hmem | heq
            · exact ndl_children h p hmem
            · rw [heq]
              exact ih (ndl_children h _ (findChild_mem hfc))
      | none =>
          have hadd : n.addWord (a :: as)
              = Node.mk (updateChild n.children a ((Node.mk [] false).addWord as))
                  n.is_end := by
            simp [Node.addWord, hfc]
          rw [hadd]
          refine NoDeadLeaves.mk _ _ ?_ ?_
          · intro p hp
            rcases mem_updateChild hp with hmem | heq
            · exact ndl_alive h p hmem
            · rw [heq]
              exact addWord_alive _ as
          · intro p hp
            rcases mem_updateChild hp with hmem | heq
            · exact ndl_children h p hmem
            · rw [heq]
              exact ih ndl_leaf

theorem isEmpty_false_of_ne_nil {l : List (Char × Node)} (h : l ≠ []) :
    l.isEmpty = false := by
  cases l with
  | nil => exact absurd rfl h
  | cons q qs => rfl

theorem eq_nil_of_isEmpty {l : List (Char × Node)} (h : l.isEmpty = true) : l = [] := by
  cases l with
  | nil => rfl
  | cons q qs => simp [List.isEmpty] at h

theorem delRecList_never_panics (n : Node) (w : List Char) :
    delRecList n w ≠ DelRes.panicked := by
  induction w generalizing n with
  | nil => cases he : n.is_end <;> simp [delRecList, he]
  | cons c cs ih =>
      cases hfc : findChild c n.children with
      | some m =>
          cases hr : delRecList m cs with
          | panicked => exact absurd hr (ih m)
          | err m2 => simp [delRecList, hfc, hr]
          | ok sd m2 => by_cases hsd : sd = true <;> simp [delRecList, hfc, hr, hsd]
      | none => simp [delRecList, hfc]

/-- A failing level of the recursion hands back the node unchanged. -/
theorem delRecList_err_eq {n n2 : Node} {w : List Char}
    (h : delRecList n w = DelRes.err n2) : n2 = n := by
  induction w generalizing n n2 with
  | nil =>
      cases he : n.is_end with
      | false =>
          simp [delRecList, he] at h
          exact h.symm
      | true => simp [delRecList, he] at h
  | cons c cs ih =>
      cases hfc : findChild c n.children with
      | none =>
          simp [delRecList, hfc] at h
          exact h.symm
      | some m =>
          cases hr : delRecList m cs with
          | panicked => simp [delRecList, hfc, hr] at h
          | ok sd m2 =>
              by_cases hsd : sd = true <;> simp [delRecList, hfc, hr, hsd] at h
          | err m2 =>
              simp only [delRecList, hfc, hr, DelRes.err.injEq] at h
              have hm2 : m2 = m := ih hr
              subst hm2
              rw [← h, updateChild_self_id hfc, Node.eta]

/-- The should-delete signal is true exactly of a node left childless and
non-end by the level below. -/
theorem delRecList_ok_sd {n n2 : Node} {sd : Bool} {w : List Char}
    (h : delRecList n w = DelRes.ok sd n2) :
    sd = (n2.children.isEmpty && !n2.is_end) := by
  cases w with
  | nil =>
      cases he : n.is_end with
      | false => simp [delRecList, he] at h
      | true =>
          simp only [delRecList, he, Bool.not_true, Bool.false_eq_true, if_false,
            DelRes.ok.injEq] at h
          obtain ⟨h1, h2⟩ := h
          rw [← h1, ← h2]
          simp [Node.children_mk, Node.is_end_mk]
  | cons c cs =>
      cases hfc : findChild c n.children with
      | none => simp [delRecList, hfc] at h
      | some m =>
          cases hr : delRecList m cs with
          | panicked => simp [delRecList, hfc, hr] at h
          | err m2 => simp [delRecList, hfc, hr] at h
          | ok sd2 m2 =>
              by_cases hsd : sd2 = true
              · simp only [delRecList, hfc, hr, hsd, if_true, DelRes.ok.injEq] at h
                obtain ⟨h1, h2⟩ := h
                rw [← h1, ← h2]
                simp [Node.children_mk, Node.is_end_mk]
              · simp only [delRecList, hfc, hr, hsd] at h
                rw [if_neg (by simp)] at h
                cases h
                simp only [Node.children_mk, Node.is_end_mk]
                rw [isEmpty_false_of_ne_nil (updateChild_ne_nil n.children c m2)]
                simp

/-- A successful level of the recursion removes exactly one end marker from
its subtree. -/
theorem delRecList_ok_endCount {n n2 : Node} {sd : Bool} {w : List Char}
    (h : delRecList n w = DelRes.ok sd n2) : n.endCount = n2.endCount + 1 := by
  induction w generalizing n n2 sd with
  | nil =>
      cases he : n.is_end with
      | false => simp [delRecList, he] at h
      | true =>
          simp only [delRecList, he, Bool.not_true, Bool.false_eq_true, if_false,
            DelRes.ok.injEq] at h
          obtain ⟨h1, h2⟩ := h
          rw [← h2, endCount_eq n, he, endCount_mk]
          simp
          omega
  | cons c cs ih =>
      cases hfc : findChild c n.children with
      | none => simp [delRecList, hfc] at h
      | some m =>
          cases hr : delRecList m cs with
          | panicked => simp [delRecList, hfc, hr] at h
          | err m2 => simp [delRecList, hfc, hr] at h
          | ok sd2 m2 =>
              have hm : m.endCount = m2.endCount + 1 := ih hr
              by_cases hsd : sd2 = true
              · have hsd2 := delRecList_ok_sd hr
                rw [hsd] at hsd2
                have hand := hsd2.symm
                rw [Bool.and_eq_true] at hand
                have hch : m2.children = [] := eq_nil_of_isEmpty hand.1
                have hie : m2.is_end = false := by
                  have := hand.2
                  simp at this
                  exact this
                have hm2z : m2.endCount = 0 := by
                  rw [endCount_eq m2, hie, hch]
                  simp [childrenEndCount]
                simp only [delRecList, hfc, hr, hsd, if_true, DelRes.ok.injEq] at h
                obtain ⟨h1, h2⟩ := h
                rw [← h2, endCount_mk, endCount_eq n]
                have hrem := childrenEndCount_removeChild hfc
                cases hie2 : n.is_end <;> simp <;> omega
              · simp only [delRecList, hfc, hr, hsd] at h
                rw [if_neg (by simp)] at h
                cases h
                rw [endCount_mk, endCount_eq n]
                have hupd := childrenEndCount_updateChild hfc m2
                cases hie2 : n.is_end <;> simp <;> omega

/-- After a successful delete level, exactly the deleted suffix stops being
searchable; every other word keeps its search result (key uniqueness needed). -/
theorem searchFrom_delRecList_ok {n n2 : Node} {sd : Bool} {w : List Char}
    (hwf : n.WF) (h : delRecList n w = DelRes.ok sd n2) :
    ∀ u : List Char, n2.searchFrom u = (n.searchFrom u && !(decide (u = w))) := by
  induction w generalizing n n2 sd with
  | nil =>
      intro u
      cases he : n.is_end with
      | false => simp [delRecList, he] at h
      | true =>
          simp only [delRecList, he, Bool.not_true, Bool.false_eq_true, if_false,
            DelRes.ok.injEq] at h
          obtain ⟨h1, h2⟩ := h
          subst h2
          cases u with
          | nil => simp [Node.searchFrom, Node.is_end_mk, he]
          | cons d ds => simp [Node.searchFrom, Node.children_mk]
  | cons c cs ih =>
      intro u
      cases hfc : findChild c n.children with
      | none => simp [delRecList, hfc] at h
      | some m =>
          have hwfm : m.WF := wf_child hwf hfc
          cases hr : delRecList m cs with
          | panicked => simp [delRecList, hfc, hr] at h
          | err m2 => simp [delRecList, hfc, hr] at h
          | ok sd2 m2 =>
              have hs := ih hwfm hr
              by_cases hsd : sd2 = true
              · have hsd2 := delRecList_ok_sd hr
                rw [hsd] at hsd2
                have hand := hsd2.symm
                rw [Bool.and_eq_true] at hand
                have hch : m2.children = [] := eq_nil_of_isEmpty hand.1
                have hie : m2.is_end = false := by simpa using hand.2
                simp only [delRecList, hfc, hr, hsd, if_true, DelRes.ok.injEq] at h
                obtain ⟨h1, h2⟩ := h
                subst h2
                cases u with
                | nil => simp [Node.searchFrom, Node.is_end_mk]
                | cons d ds =>
                    by_cases hdc : d = c
                    · subst hdc
                      have hnone : findChild d (removeChild n.children d) = none :=
                        findChild_removeChild_self _ _ (wf_keys hwf)
                      by_cases hds : ds = cs
                      · subst hds
                        simp [Node.searchFrom, Node.children_mk, hnone]
                      · have h5 : m2.searchFrom ds = false := searchFrom_dead hch hie ds
                        rw [hs ds] at h5
                        simp only [hds, decide_False, Bool.not_false, Bool.and_true] at h5
                        simp [Node.searchFrom, Node.children_mk, hnone, hfc, h5, hds]
                    · have heq : findChild d (removeChild n.children c) = findChild d n.children :=
                        findChild_removeChild_ne _ hdc
                      have hne : ¬(d :: ds = c :: cs) := by simp [hdc]
                      cases hfd : findChild d n.children with
                      | some m3 => simp [Node.searchFrom, Node.children_mk, heq, hfd, hne]
                      | none => simp [Node.searchFrom, Node.children_mk, heq, hfd, hne]
              · simp only [delRecList, hfc, hr, hsd] at h
                rw [if_neg (by simp)] at h
                cases h
                cases u with
                | nil => simp [Node.searchFrom, Node.is_end_mk]
                | cons d ds =>
                    by_cases hdc : d = c
                    · subst hdc
                      have hupd : findChild d (updateChild n.children d m2) = some m2 :=
                        findChild_updateChild_self _ _ _
                      by_cases hds : ds = cs
                      · subst hds
                        simp [Node.searchFrom, Node.children_mk, hupd, hfc, hs ds]
                      · simp [Node.searchFrom, Node.children_mk, hupd, hfc, hs ds, hds]
                    · have hupd : findChild d (updateChild n.children c m2) = findChild d n.children :=
                        findChild_updateChild_ne _ _ hdc
                      have hne : ¬(d :: ds = c :: cs) := by simp [hdc]
                      cases hfd : findChild d n.children with
                      | some m3 => simp [Node.searchFrom, Node.children_mk, hupd, hfd, hne]
                      | none => simp [Node.searchFrom, Node.children_mk, hupd, hfd, hne]

/-- The structural recursion fails exactly on the words search does not find. -/
theorem delRecList_isErr (n : Node) (w : List Char) :
    (delRecList n w).isErr = !n.searchFrom w := by
  induction w generalizing n with
  | nil =>
      cases he : n.is_end <;>
        simp [delRecList, he, Node.searchFrom, DelRes.isErr]
  | cons c cs ih =>
      cases hfc : findChild c n.children with
      | none => simp [delRecList, hfc, Node.searchFrom, DelRes.isErr]
      | some m =>
          cases hr : delRecList m cs with
          | panicked => exact absurd hr (delRecList_never_panics m cs)
          | err m2 =>
              have hms : m.searchFrom cs = false := by
                have hx := ih m
                rw [hr] at hx
                simpa [DelRes.isErr] using hx.symm
              simp [delRecList, hfc, hr, Node.searchFrom, DelRes.isErr, hms]
          | ok sd m2 =>
              have hms : m.searchFrom cs = true := by
                have hx := ih m
                rw [hr] at hx
                simpa [DelRes.isErr] using hx.symm
              by_cases hsd : sd = true <;>
                simp [delRecList, hfc, hr, hsd, Node.searchFrom, DelRes.isErr, hms]

theorem delRecList_isOk (n : Node) (w : List Char) :
    (delRecList n w).isOk = n.searchFrom w := by
  cases hr : delRecList n w with
  | panicked => exact absurd hr (delRecList_never_panics n w)
  | err m2 =>
      have hx := delRecList_isErr n w
      rw [hr] at hx
      simp only [DelRes.isErr] at hx
      simp [DelRes.isOk, ← Bool.not_eq_true', ← hx]
  | ok sd m2 =>
      have hx := delRecList_isErr n w
      rw [hr] at hx
      simp only [DelRes.isErr] at hx
      have hsw : n.searchFrom w = true := by
        cases hsw : n.searchFrom w
        · rw [hsw] at hx
          simp at hx
        · rfl
      simp [DelRes.isOk, hsw]

theorem ne_nil_of_isEmpty_false {l : List (Char × Node)} (h : l.isEmpty = false) :
    l ≠ [] := by
  intro hn
  rw [hn] at h
  simp [List.isEmpty] at h

/-- Successful deletion prunes every node it leaves childless and non-end, so
the no-dead-leaf invariant survives. -/
theorem ndl_delRecList_ok {n n2 : Node} {sd : Bool} {w : List Char}
    (h : delRecList n w = DelRes.ok sd n2) (hn : NoDeadLeaves n) :
    NoDeadLeaves n2 := by
  induction w generalizing n n2 sd with
  | nil =>
      cases he : n.is_end with
      | false => simp [delRecList, he] at h
      | true =>
          simp only [delRecList, he, Bool.not_true, Bool.false_eq_true, if_false,
            DelRes.ok.injEq] at h
          obtain ⟨h1, h2⟩ := h
          subst h2
          exact NoDeadLeaves.mk _ _ (ndl_alive hn) (ndl_children hn)
  | cons c cs ih =>
      cases hfc : findChild c n.children with
      | none => simp [delRecList, hfc] at h
      | some m =>
          have hm : NoDeadLeaves m := ndl_children hn _ (findChild_mem hfc)
          cases hr : delRecList m cs with
          | panicked => simp [delRecList, hfc, hr] at h
          | err m2 => simp [delRecList, hfc, hr] at h
          | ok sd2 m2 =>
              have hm2 : NoDeadLeaves m2 := ih hr hm
              by_cases hsd : sd2 = true
              · simp only [delRecList, hfc, hr, hsd, if_true, DelRes.ok.injEq] at h
                obtain ⟨h1, h2⟩ := h
                subst h2
                refine NoDeadLeaves.mk _ _ ?_ ?_
                · intro p hp
                  exact ndl_alive hn p (mem_of_mem_removeChild hp)
                · intro p hp
                  exact ndl_children hn p (mem_of_mem_removeChild hp)
              · have hsdf : sd2 = false := by
                  revert hsd
                  cases sd2 <;> simp
                have hand : (m2.children.isEmpty && !m2.is_end) = false := by
                  rw [← delRecList_ok_sd hr, hsdf]
                have halive : m2.is_end = true ∨ m2.children ≠ [] := by
                  cases hE : m2.children.isEmpty <;> cases hI : m2.is_end
                  · exact Or.inr (ne_nil_of_isEmpty_false hE)
                  · exact Or.inl rfl
                  · rw [hE, hI] at hand
                    simp at hand
                  · exact Or.inl rfl
                simp only [delRecList, hfc, hr, hsd] at h
                rw [if_neg (by simp)] at h
                cases h
                refine NoDeadLeaves.mk _ _ ?_ ?_
                · intro p hp
                  rcases mem_updateChild hp with hmem | heq
                  · exact ndl_alive hn p hmem
                  · rw [heq]
                    exact halive
                · intro p hp
                  rcases mem_updateChild hp with hmem | heq
                  · exact ndl_children hn p hmem
                  · rw [heq]
                    exact hm2

theorem length_le_byteLen (w : List Char) : w.length ≤ byteLen w := by
  induction w with
  | nil => simp [byteLen]
  | cons a as ih =>
      have := a.utf8Size_pos
      simp only [byteLen, List.map_cons, List.sum_cons, List.length_cons] at ih ⊢
      omega

theorem drop_cons_of_get {w : List Char} {i : Nat} {c : Char}
    (h : w.get? i = some c) : w.drop i = c :: w.drop (i + 1) := by
  obtain ⟨hlt, hg⟩ := List.get?_eq_some.mp h
  rw [List.drop_eq_getElem_cons hlt]
  rw [List.get_eq_getElem] at hg
  rw [hg]

/-- One-step unfolding of delete_recursive below the base case, with the
character at the current index given. -/
theorem delete_recursive_step {node : Node} {word : List Char} {index : Nat}
    (hne : ¬ index = byteLen word) {c : Char} (hget : word.get? index = some c) :
    delete_recursive node word index =
      (match findChild c node.children with
       | some next =>
         match delete_recursive next word (index + 1) with
         | DelRes.panicked => DelRes.panicked
         | DelRes.err next2 =>
             DelRes.err (Node.mk (updateChild node.children c next2) node.is_end)
         | DelRes.ok sd next2 =>
             if sd then
               DelRes.ok ((removeChild node.children c).isEmpty && !node.is_end)
                 (Node.mk (removeChild node.children c) node.is_end)
             else
               DelRes.ok false (Node.mk (updateChild node.children c next2) node.is_end)
       | none => DelRes.err node) := by
  rw [delete_recursive.eq_def, if_neg hne]
  split
  · rename_i hw2
    rw [hget] at hw2
    simp at hw2
  · rename_i c' hw2
    rw [hget] at hw2
    cases hw2
    rfl

/-- Whatever the word, a WordNotFound outcome of delete_recursive leaves the
node exactly as it was: the in-place mutation is invisible on failure. -/
theorem delete_recursive_err_eq (n : Node) (w : List Char) (i : Nat) :
    ∀ n2, delete_recursive n w i = DelRes.err n2 → n2 = n := by
  induction n, w, i using delete_recursive.induct with
  | case1 node word h1 =>
      intro n2 h
      rw [delete_recursive.eq_def, if_pos rfl, if_pos h1] at h
      exact (DelRes.err.inj h).symm
  | case2 node word h1 =>
      intro n2 h
      rw [delete_recursive.eq_def, if_pos rfl, if_neg h1] at h
      simp at h
  | case3 node word index hne hget =>
      intro n2 h
      rw [delete_recursive.eq_def, if_neg hne] at h
      split at h
      · simp at h
      · rename_i c2 hw2
        rw [hget] at hw2
        simp at hw2
  | case4 node word index hne c hget m hfc hrec IH =>
      intro n2 h
      rw [delete_recursive_step hne hget] at h
      simp [hfc, hrec] at h
  | case5 node word index hne c hget m hfc next2 hrec IH =>
      intro n2 h
      rw [delete_recursive_step hne hget] at h
      simp only [hfc, hrec, DelRes.err.injEq] at h
      have hm := IH next2 hrec
      subst hm
      rw [← h, updateChild_self_id hfc]
      exact Node.eta node
  | case6 node word index hne c hget m hfc next2 hrec IH =>
      intro n2 h
      rw [delete_recursive_step hne hget] at h
      simp [hfc, hrec] at h
  | case7 node word index hne c hget m hfc sd2 next2 hrec hsd IH =>
      intro n2 h
      rw [delete_recursive_step hne hget] at h
      simp [hfc, hrec, hsd] at h
  | case8 node word index hne c hget hfc =>
      intro n2 h
      rw [delete_recursive_step hne hget] at h
      simp only [hfc, DelRes.err.injEq] at h
      exact h.symm

theorem delete_recursive_ok_bound (n : Node) (w : List Char) (i : Nat) :
    ∀ sd n2, delete_recursive n w i = DelRes.ok sd n2 →
      byteLen w ≤ w.length ∨ byteLen w ≤ i := by
  induction n, w, i using delete_recursive.induct with
  | case1 node word h1 =>
      intro sd n2 h
      exact Or.inr le_rfl
  | case2 node word h1 =>
      intro sd n2 h
      exact Or.inr le_rfl
  | case3 node word index hne hget =>
      intro sd n2 h
      rw [delete_recursive.eq_def, if_neg hne] at h
      split at h
      · simp at h
      · rename_i c2 hw2
        rw [hget] at hw2
        simp at hw2
  | case4 node word index hne c hget m hfc hrec IH =>
      intro sd n2 h
      rw [delete_recursive_step hne hget] at h
      simp [hfc, hrec] at h
  | case5 node word index hne c hget m hfc next2 hrec IH =>
      intro sd n2 h
      rw [delete_recursive_step hne hget] at h
      simp [hfc, hrec] at h
  | case6 node word index hne c hget m hfc next2 hrec IH =>
      intro sd n2 h
      have hidx : index < word.length := (List.get?_eq_some.mp hget).1
      rcases IH true next2 hrec with hl | hr2
      · exact Or.inl hl
      · by_cases hbl : byteLen word ≤ index
        · exact Or.inr hbl
        · exact Or.inl (by omega)
  | case7 node word index hne c hget m hfc sd2 next2 hrec hsd IH =>
      intro sd n2 h
      have hidx : index < word.length := (List.get?_eq_some.mp hget).1
      rcases IH sd2 next2 hrec with hl | hr2
      · exact Or.inl hl
      · by_cases hbl : byteLen word ≤ index
        · exact Or.inr hbl
        · exact Or.inl (by omega)
  | case8 node word index hne c hget hfc =>
      intro sd n2 h
      rw [delete_recursive_step hne hget] at h
      simp [hfc] at h

/-- delete only ever succeeds on words whose byte length equals their
character count (every character one byte); on any other stored word the
recursion runs out of characters and panics first. -/
theorem delete_recursive_ok_ascii {n : Node} {w : List Char} {sd : Bool} {n2 : Node}
    (h : delete_recursive n w 0 = DelRes.ok sd n2) : byteLen w = w.length := by
  have hb := delete_recursive_ok_bound n w 0 sd n2 h
  have hl := length_le_byteLen w
  omega

/-- On words whose characters are all single-byte, the source's byte-indexed
recursion agrees with the structural one. -/
theorem delete_recursive_eq_delRecList (n : Node) (w : List Char) (i : Nat) :
    byteLen w = w.length → i ≤ w.length →
      delete_recursive n w i = delRecList n (w.drop i) := by
  induction n, w, i using delete_recursive.induct with
  | case1 node word h1 =>
      intro hb hi
      have hd : word.drop (byteLen word) = [] := by
        rw [hb]
        simp
      rw [delete_recursive.eq_def, if_pos rfl, hd]
      simp [delRecList]
  | case2 node word h1 =>
      intro hb hi
      have hd : word.drop (byteLen word) = [] := by
        rw [hb]
        simp
      rw [delete_recursive.eq_def, if_pos rfl, hd]
      simp [delRecList]
  | case3 node word index hne hget =>
      intro hb hi
      exfalso
      have hlen : word.length ≤ index := List.get?_eq_none.mp hget
      exact hne (by omega)
  | case4 node word index hne c hget m hfc hrec IH =>
      intro hb hi
      exfalso
      have hidx : index < word.length := (List.get?_eq_some.mp hget).1
      have hih := IH hb (by omega)
      rw [hih] at hrec
      exact delRecList_never_panics _ _ hrec
  | case5 node word index hne c hget m hfc next2 hrec IH =>
      intro hb hi
      have hidx : index < word.length := (List.get?_eq_some.mp hget).1
      have hih := IH hb (by omega)
      have hdrop := drop_cons_of_get hget
      rw [delete_recursive_step hne hget, hdrop]
      simp only [hfc, hih, delRecList]
  | case6 node word index hne c hget m hfc next2 hrec IH =>
      intro hb hi
      have hidx : index < word.length := (List.get?_eq_some.mp hget).1
      have hih := IH hb (by omega)
      have hdrop := drop_cons_of_get hget
      rw [delete_recursive_step hne hget, hdrop]
      simp only [hfc, hih, delRecList]
  | case7 node word index hne c hget m hfc sd2 next2 hrec hsd IH =>
      intro hb hi
      have hidx : index < word.length := (List.get?_eq_some.mp hget).1
      have hih := IH hb (by omega)
      have hdrop := drop_cons_of_get hget
      rw [delete_recursive_step hne hget, hdrop]
      simp only [hfc, hih, delRecList]
  | case8 node word index hne c hget hfc =>
      intro hb hi
      have hdrop := drop_cons_of_get hget
      rw [delete_recursive_step hne hget, hdrop]
      simp only [hfc, delRecList]

theorem delete_recursive_eq_delRecList_zero (n : Node) (w : List Char)
    (hb : byteLen w = w.length) : delete_recursive n w 0 = delRecList n w := by
  have := delete_recursive_eq_delRecList n w 0 hb (Nat.zero_le _)
  simpa using this

theorem search_add (t : Trie) (v w : List Char) :
    (t.add v).search w = (decide (w = v) || t.search w) :=
  searchFrom_addWord t.root v w

theorem i32wrap_mem (x : Int) : -2147483648 ≤ i32wrap x ∧ i32wrap x < 2147483648 := by
  unfold i32wrap
  omega

theorem i32wrap_id {x : Int} (h1 : -2147483648 ≤ x) (h2 : x < 2147483648) :
    i32wrap x = x := by
  unfold i32wrap
  omega

theorem i32wrap_wrap_add (x y : Int) : i32wrap (i32wrap x + y) = i32wrap (x + y) := by
  unfold i32wrap
  omega

theorem i32wrap_wrap_sub (x y : Int) : i32wrap (i32wrap x - y) = i32wrap (x - y) := by
  unfold i32wrap
  omega

theorem i32wrap_absorb (x y z : Int) :
    i32wrap (i32wrap x + y - z) = i32wrap (x + y - z) := by
  unfold i32wrap
  omega

theorem i32ofInt_val (x : Int) : (i32ofInt x).val = i32wrap x := rfl

/-- add performs a wrapping i32 increment of count. -/
theorem count_add (t : Trie) (w : List Char) :
    (t.add w).count = i32ofInt (t.count.val + 1) := rfl

/-- Trie::delete returning WordNotFound leaves the whole trie (root and count)
exactly as it was. -/
theorem delete_err_inv {t t2 : Trie} {w : List Char} {e : TrieError}
    (h : t.delete w = DeleteOutcome.err e t2) : t2 = t := by
  simp only [Trie.delete] at h
  cases hr : delete_recursive t.root w 0 with
  | panicked =>
      rw [hr] at h
      simp at h
  | ok sd root2 =>
      rw [hr] at h
      simp at h
  | err root2 =>
      rw [hr] at h
      simp only [DeleteOutcome.err.injEq] at h
      obtain ⟨he, ht⟩ := h
      have hroot := delete_recursive_err_eq t.root w 0 root2 hr
      rw [← ht, hroot]

theorem count_delete_ok {t t2 : Trie} {w : List Char}
    (h : t.delete w = DeleteOutcome.ok t2) : t2.count = i32ofInt (t.count.val - 1) := by
  simp only [Trie.delete] at h
  cases hr : delete_recursive t.root w 0 with
  | panicked =>
      rw [hr] at h
      simp at h
  | err root2 =>
      rw [hr] at h
      simp at h
  | ok sd root2 =>
      rw [hr] at h
      simp only [DeleteOutcome.ok.injEq] at h
      rw [← h]

theorem endCount_delete_ok {t t2 : Trie} {w : List Char}
    (h : t.delete w = DeleteOutcome.ok t2) :
    t.root.endCount = t2.root.endCount + 1 := by
  simp only [Trie.delete] at h
  cases hr : delete_recursive t.root w 0 with
  | panicked =>
      rw [hr] at h
      simp at h
  | err root2 =>
      rw [hr] at h
      simp at h
  | ok sd root2 =>
      rw [hr] at h
      simp only [DeleteOutcome.ok.injEq] at h
      have hb := delete_recursive_ok_ascii hr
      rw [delete_recursive_eq_delRecList_zero t.root w hb] at hr
      have := delRecList_ok_endCount hr
      rw [← h]
      exact this

/-- Search after a successful delete: exactly the deleted word disappears. -/
theorem search_delete_ok {t t2 : Trie} {w : List Char} (hwf : t.root.WF)
    (h : t.delete w = DeleteOutcome.ok t2) :
    ∀ u, t2.search u = (t.search u && !(decide (u = w))) := by
  simp only [Trie.delete] at h
  cases hr : delete_recursive t.root w 0 with
  | panicked =>
      rw [hr] at h
      simp at h
  | err root2 =>
      rw [hr] at h
      simp at h
  | ok sd root2 =>
      rw [hr] at h
      simp only [DeleteOutcome.ok.injEq] at h
      have hb := delete_recursive_ok_ascii hr
      rw [delete_recursive_eq_delRecList_zero t.root w hb] at hr
      intro u
      have hs := searchFrom_delRecList_ok hwf hr u
      rw [← h]
      exact hs

/-- For single-byte words, delete fails exactly on the unsearchable ones. -/
theorem delete_isErr_ascii (t : Trie) (w : List Char) (hb : byteLen w = w.length) :
    (t.delete w).isErr = !t.search w := by
  simp only [Trie.delete]
  rw [delete_recursive_eq_delRecList_zero t.root w hb]
  cases hr : delRecList t.root w with
  | panicked => exact absurd hr (delRecList_never_panics _ _)
  | err root2 =>
      have hx := delRecList_isErr t.root w
      rw [hr] at hx
      simp only [DelRes.isErr] at hx
      simp only [DeleteOutcome.isErr]
      exact hx
  | ok sd root2 =>
      have hx := delRecList_isErr t.root w
      rw [hr] at hx
      simp only [DelRes.isErr] at hx
      simp only [DeleteOutcome.isErr]
      exact hx

/-- For single-byte words, delete succeeds exactly on the searchable ones. -/
theorem delete_isOk_ascii (t : Trie) (w : List Char) (hb : byteLen w = w.length) :
    (t.delete w).isOk = t.search w := by
  simp only [Trie.delete]
  rw [delete_recursive_eq_delRecList_zero t.root w hb]
  cases hr : delRecList t.root w with
  | panicked => exact absurd hr (delRecList_never_panics _ _)
  | err root2 =>
      have hx := delRecList_isOk t.root w
      rw [hr] at hx
      simp only [DelRes.isOk] at hx
      simp only [DeleteOutcome.isOk]
      exact hx
  | ok sd root2 =>
      have hx := delRecList_isOk t.root w
      rw [hr] at hx
      simp only [DelRes.isOk] at hx
      simp only [DeleteOutcome.isOk]
      exact hx

/-- If a level reports WordNotFound, the suffix it was asked to delete is not
searchable from that node (holds for every word, multi-byte ones included). -/
theorem delete_recursive_err_search (n : Node) (w : List Char) (i : Nat) :
    ∀ n2, delete_recursive n w i = DelRes.err n2 →
      n.searchFrom (w.drop i) = false := by
  induction n, w, i using delete_recursive.induct with
  | case1 node word h1 =>
      intro n2 h
      have hd : word.drop (byteLen word) = [] :=
        List.drop_eq_nil_of_le (length_le_byteLen word)
      rw [hd]
      simp only [Node.searchFrom]
      simpa using h1
  | case2 node word h1 =>
      intro n2 h
      rw [delete_recursive.eq_def, if_pos rfl, if_neg h1] at h
      simp at h
  | case3 node word index hne hget =>
      intro n2 h
      rw [delete_recursive.eq_def, if_neg hne] at h
      split at h
      · simp at h
      · rename_i c2 hw2
        rw [hget] at hw2
        simp at hw2
  | case4 node word index hne c hget m hfc hrec IH =>
      intro n2 h
      rw [delete_recursive_step hne hget] at h
      simp [hfc, hrec] at h
  | case5 node word index hne c hget m hfc next2 hrec IH =>
      intro n2 h
      have hdrop := drop_cons_of_get hget
      rw [hdrop]
      have hs := IH next2 hrec
      simp [Node.searchFrom, hfc, hs]
  | case6 node word index hne c hget m hfc next2 hrec IH =>
      intro n2 h
      rw [delete_recursive_step hne hget] at h
      simp [hfc, hrec] at h
  | case7 node word index hne c hget m hfc sd2 next2 hrec hsd IH =>
      intro n2 h
      rw [delete_recursive_step hne hget] at h
      simp [hfc, hrec, hsd] at h
  | case8 node word index hne c hget hfc =>
      intro n2 h
      have hdrop := drop_cons_of_get hget
      rw [hdrop]
      simp [Node.searchFrom, hfc]

/-- WordNotFound from Trie::delete implies the word is not stored (any word). -/
theorem search_false_of_delete_err {t t2 : Trie} {w : List Char} {e : TrieError}
    (h : t.delete w = DeleteOutcome.err e t2) : t.search w = false := by
  simp only [Trie.delete] at h
  cases hr : delete_recursive t.root w 0 with
  | panicked =>
      rw [hr] at h
      simp at h
  | ok sd root2 =>
      rw [hr] at h
      simp at h
  | err root2 =>
      have := delete_recursive_err_search t.root w 0 root2 hr
      simpa using this

/-- Below the root (index 0 of a nonempty-byte word) a completed level always
preserves the node's own is_end flag. -/
theorem delete_recursive_ok_is_end {n : Node} {w : List Char} {sd : Bool} {n2 : Node}
    (hne : ¬ (0 : Nat) = byteLen w) (h : delete_recursive n w 0 = DelRes.ok sd n2) :
    n2.is_end = n.is_end := by
  cases hget : w.get? 0 with
  | none =>
      rw [delete_recursive.eq_def, if_neg hne] at h
      split at h
      · simp at h
      · rename_i c2 hw2
        rw [hget] at hw2
        simp at hw2
  | some c =>
      rw [delete_recursive_step hne hget] at h
      cases hfc : findChild c n.children with
      | none => simp [hfc] at h
      | some m =>
          cases hrec : delete_recursive m w (0 + 1) with
          | panicked => simp [hfc, hrec] at h
          | err m2 => simp [hfc, hrec] at h
          | ok sd2 m2 =>
              by_cases hsd : sd2 = true
              · simp only [hfc, hrec, hsd, if_true, DelRes.ok.injEq] at h
                obtain ⟨h1, h2⟩ := h
                rw [← h2]
                rfl
              · simp only [hfc, hrec, hsd] at h
                rw [if_neg (by simp)] at h
                cases h
                rfl

theorem searchFrom_eq_findPath (n : Node) (w : List Char) :
    n.searchFrom w = (match n.findPath w with
                      | some m => m.is_end
                      | none => false) := by
  induction w generalizing n with
  | nil => simp [Node.searchFrom, Node.findPath]
  | cons c cs ih =>
      cases hfc : findChild c n.children with
      | some m => simp [Node.searchFrom, Node.findPath, hfc, ih]
      | none => simp [Node.searchFrom, Node.findPath, hfc]

theorem search_foldl_mem (ws : List (List Char)) :
    ∀ (t : Trie) (w : List Char),
      (ws.foldl Trie.add t).search w = true → w ∈ ws ∨ t.search w = true := by
  induction ws with
  | nil =>
      intro t w h
      exact Or.inr h
  | cons v vs ih =>
      intro t w h
      simp only [List.foldl_cons] at h
      rcases ih (t.add v) w h with hmem | hs
      · exact Or.inl (List.mem_cons_of_mem _ hmem)
      · rw [search_add] at hs
        by_cases hwv : w = v
        · exact Or.inl (by simp [hwv])
        · right
          simpa [hwv] using hs

theorem default_search_false (w : List Char) : Trie.default.search w = false :=
  searchFrom_leaf w

/-- Membership soundness of search over a trie built by a list of adds. -/
theorem search_sound (ws : List (List Char)) (w : List Char)
    (h : (ws.foldl Trie.add Trie.default).search w = true) : w ∈ ws := by
  rcases search_foldl_mem ws Trie.default w h with hm | hs
  · exact hm
  · rw [default_search_false] at hs
    simp at hs

/-- Bookkeeping of count along any completed run of operations: count is the
i32-wrapped value of its starting point plus adds minus successful deletes. -/
theorem runOps_count (ops : List Op) :
    ∀ (t0 t : Trie) (a d : Nat),
      runOps t0 ops = some (t, a, d) →
        t.count.val = i32wrap (t0.count.val + a - d) := by
  induction ops with
  | nil =>
      intro t0 t a d h
      simp only [runOps] at h
      cases h
      simpa using (i32wrap_id t0.count.2.1 t0.count.2.2).symm
  | cons op rest ih =>
      intro t0 t a d h
      cases op with
      | addOp w =>
          simp only [runOps] at h
          cases hr : runOps (t0.add w) rest with
          | none =>
              rw [hr] at h
              simp at h
          | some r =>
              obtain ⟨t1, a1, d1⟩ := r
              rw [hr] at h
              have hrec := ih (t0.add w) t1 a1 d1 hr
              have hcv : (t0.add w).count.val = i32wrap (t0.count.val + 1) := rfl
              rw [hcv, i32wrap_absorb] at hrec
              simp only [Option.map] at h
              cases h
              rw [hrec]
              congr 1
              push_cast
              ring
      | delOp w =>
          simp only [runOps] at h
          cases hd : t0.delete w with
          | panicked =>
              rw [hd] at h
              simp at h
          | err e t1 =>
              rw [hd] at h
              have h2 : runOps t1 rest = some (t, a, d) := h
              have hrec := ih t1 t a d h2
              rw [delete_err_inv hd] at hrec
              exact hrec
          | ok t1 =>
              rw [hd] at h
              have h2 : Option.map (fun r => (r.1, r.2.1, r.2.2 + 1)) (runOps t1 rest)
                  = some (t, a, d) := h
              cases hr : runOps t1 rest with
              | none =>
                  rw [hr] at h2
                  simp at h2
              | some r =>
                  obtain ⟨t2, a1, d1⟩ := r
                  rw [hr] at h2
                  have hrec := ih t1 t2 a1 d1 hr
                  have hcnt := count_delete_ok hd
                  rw [hcnt, i32ofInt_val] at hrec
                  have habs : i32wrap (i32wrap (t0.count.val - 1) + a1 - d1)
                      = i32wrap (t0.count.val - 1 + a1 - d1) := i32wrap_absorb _ _ _
                  rw [habs] at hrec
                  simp only [Option.map] at h2
                  cases h2
                  rw [hrec]
                  congr 1
                  push_cast
                  ring

/-- Count bookkeeping invariant without duplicate adds: count is the
i32-wrapped number of end nodes. -/
theorem count_eq_endCount_reachableND :
    ∀ t : Trie, ReachableND t → t.count.val = i32wrap ((t.root.endCount : Int)) := by
  intro t h
  induction h with
  | empty => rfl
  | addStep t0 w ht hp ih =>
      have he := endCount_addWord t0.root w
      have hsf : t0.root.searchFrom w = false := hp
      rw [hsf] at he
      simp at he
      have hcv : (t0.add w).count.val = i32wrap (t0.count.val + 1) := rfl
      rw [hcv, ih, i32wrap_wrap_add]
      have hroot : (t0.add w).root = t0.root.addWord w := rfl
      rw [hroot, he]
      have harg : ((t0.root.endCount : Int) + 1) = (((t0.root.endCount + 1 : Nat)) : Int) := by
        push_cast
        ring
      rw [harg]
  | delOk t0 t2 w ht hdel ih =>
      have hc := count_delete_ok hdel
      have he := endCount_delete_ok hdel
      rw [hc, i32ofInt_val, ih, i32wrap_wrap_sub, he]
      have harg : (((t2.root.endCount + 1 : Nat)) : Int) - 1 = (t2.root.endCount : Int) := by
        push_cast
        ring
      rw [harg]
  | delErr t0 t2 w e ht hdel ih =>
      rw [delete_err_inv hdel]
      exact ih

/-- Root is_end stays false along any history that never adds the empty word. -/
theorem root_is_end_reachableNE :
    ∀ t : Trie, ReachableNE t → t.root.is_end = false := by
  intro t h
  induction h with
  | empty => rfl
  | addStep t0 w ht hp ih =>
      cases w with
      | nil => exact absurd rfl hp
      | cons a as =>
          have hr : (t0.add (a :: as)).root = t0.root.addWord (a :: as) := rfl
          rw [hr, is_end_addWord_cons]
          exact ih
  | delOk t0 t2 w ht hdel ih =>
      cases w with
      | nil =>
          exfalso
          simp only [Trie.delete] at hdel
          rw [delete_recursive.eq_def] at hdel
          simp [byteLen, ih] at hdel
      | cons a as =>
          have hne : ¬ (0 : Nat) = byteLen (a :: as) := by
            have := a.utf8Size_pos
            simp only [byteLen, List.map_cons, List.sum_cons]
            omega
          simp only [Trie.delete] at hdel
          cases hr : delete_recursive t0.root (a :: as) 0 with
          | panicked =>
              rw [hr] at hdel
              simp at hdel
          | err r2 =>
              rw [hr] at hdel
              simp at hdel
          | ok sd r2 =>
              rw [hr] at hdel
              simp only [DeleteOutcome.ok.injEq] at hdel
              have hie := delete_recursive_ok_is_end hne hr
              rw [← hdel]
              exact hie.trans ih
  | delErr t0 t2 w e ht hdel ih =>
      rw [delete_err_inv hdel]
      exact ih

/-- In every reachable state, no node below the root is childless and non-end. -/
theorem ndl_reachable : ∀ t : Trie, Reachable t → NoDeadLeaves t.root := by
  intro t h
  induction h with
  | empty => exact ndl_leaf
  | addStep t0 w ht hp ih => exact ndl_addWord w ih
  | delOk t0 t2 w ht hdel ih =>
      simp only [Trie.delete] at hdel
      cases hr : delete_recursive t0.root w 0 with
      | panicked =>
          rw [hr] at hdel
          simp at hdel
      | err r2 =>
          rw [hr] at hdel
          simp at hdel
      | ok sd r2 =>
          rw [hr] at hdel
          simp only [DeleteOutcome.ok.injEq] at hdel
          have hb := delete_recursive_ok_ascii hr
          rw [delete_recursive_eq_delRecList_zero t0.root w hb] at hr
          have := ndl_delRecList_ok hr ih
          rw [← hdel]
          exact this
  | delErr t0 t2 w e ht hdel ih =>
      rw [delete_err_inv hdel]
      exact ih

theorem byteLen_eq_length_of_ascii {w : List Char} (h : ∀ c ∈ w, c.utf8Size = 1) :
    byteLen w = w.length := by
  induction w with
  | nil => rfl
  | cons a as ih =>
      simp only [byteLen, List.map_cons, List.sum_cons, List.length_cons] at ih ⊢
      rw [h a (by simp)]
      rw [ih (fun c hc => h c (by simp [hc]))]
      omega

/-- Computation rule for delete on single-byte words, through the structural
recursion (used to evaluate concrete deletions). -/
theorem delete_compute (t : Trie) (w : List Char) (hb : byteLen w = w.length) :
    t.delete w = (match delRecList t.root w with
       | DelRes.panicked => DeleteOutcome.panicked
       | DelRes.err root2 => DeleteOutcome.err TrieError.wordNotFound ⟨root2, t.count⟩
       | DelRes.ok _ root2 => DeleteOutcome.ok ⟨root2, i32ofInt (t.count.val - 1)⟩) := by
  simp only [Trie.delete, delete_recursive_eq_delRecList_zero t.root w hb]

theorem panic_step_e (n : Node) : delete_recursive n ['é'] (0 + 1) = DelRes.panicked := by
  rw [delete_recursive.eq_def, if_neg (by decide)]
  rfl

/-- C1: contrary to the specification, delete can fail with an uncatchable
fault.  Deleting the stored one-character word "é" (one char, two UTF-8 bytes)
reaches recursion index 1, which is below the byte base-case bound 2, yet
word.chars().nth(1) is None and the source's .unwrap() panics. -/
theorem delete_panics_on_stored_multibyte_word :
    delete_recursive ((Node.mk [] false).addWord ['é']) ['é'] 0 = DelRes.panicked := by
  rw [delete_recursive_step (by decide) (rfl : (['é'] : List Char).get? 0 = some 'é')]
  have hfc : findChild 'é' ((Node.mk [] false).addWord ['é']).children
      = some (Node.mk [] true) := rfl
  simp only [hfc, panic_step_e]

/-- C2 (counterexample): for the word "é" the add-delete round trip does not
succeed — Trie::delete panics instead of returning a result. -/
theorem add_delete_roundtrip_counterexample :
    (Trie.default.add ['é']).delete ['é'] = DeleteOutcome.panicked := by
  have h0 : delete_recursive (Trie.default.add ['é']).root ['é'] 0 = DelRes.panicked := by
    rw [delete_recursive_step (by decide) (rfl : (['é'] : List Char).get? 0 = some 'é')]
    have hfc : findChild 'é' (Trie.default.add ['é']).root.children
        = some (Node.mk [] true) := rfl
    simp only [hfc, panic_step_e]
  simp only [Trie.delete, h0]

/-- C2 (amended): for every word whose characters are all single-byte, add
followed by delete succeeds, after which search returns false and count is
back to its previous value (0 when the word was the only entry). -/
theorem add_delete_roundtrip (t : Trie) (w : List Char) (hwf : t.root.WF)
    (ha : ∀ c ∈ w, c.utf8Size = 1) :
    ((t.add w).delete w).isOk = true
    ∧ ∀ t2, (t.add w).delete w = DeleteOutcome.ok t2 →
        t2.search w = false ∧ t2.count = t.count := by
  have hbl : byteLen w = w.length := byteLen_eq_length_of_ascii ha
  constructor
  · rw [delete_isOk_ascii _ _ hbl, search_add]
    simp
  · intro t2 h2
    have hwf2 : (t.add w).root.WF := wf_addWord w hwf
    constructor
    · rw [search_delete_ok hwf2 h2 w]
      simp
    · rw [count_delete_ok h2]
      apply Subtype.ext
      rw [i32ofInt_val]
      have h4 : (t.add w).count.val = i32wrap (t.count.val + 1) := rfl
      rw [h4, i32wrap_wrap_sub]
      have h5 : t.count.val + 1 - 1 = t.count.val := by ring
      rw [h5]
      exact i32wrap_id t.count.2.1 t.count.2.2

theorem add_delete_roundtrip_witness :
    (((Trie.default.add ['a','b']).delete ['a','b']).isOk = true)
    ∧ Trie.default.search ['a','b'] = false
    ∧ Trie.default.count.val = 0 := by
  have h := add_delete_roundtrip Trie.default ['a','b'] wf_leaf (by decide)
  have h2 : (Trie.default.add ['a','b']).delete ['a','b'] = DeleteOutcome.ok Trie.default := by
    rw [delete_compute _ _ (by decide)]
    rfl
  have h3 := h.2 Trie.default h2
  refine ⟨h.1, h3.1, ?_⟩
  rw [← h3.2]
  decide

/-- C3 (counterexample): after two adds of the same word, count is 2 but only
one reachable node has is_end true, so the stated invariant fails in a
reachable state. -/
theorem count_endCount_counterexample :
    Reachable ((Trie.default.add ['a']).add ['a'])
    ∧ ¬ (((Trie.default.add ['a']).add ['a']).count.val
          = (((Trie.default.add ['a']).add ['a']).root.endCount : Int)) := by
  constructor
  · exact ReachableP.addStep _ _
      (ReachableP.addStep _ _ ReachableP.empty True.intro) True.intro
  · decide

/-- C3 (amended): along any history of adds and completed deletes in which a
word is only ever added while not currently stored, count is the number of
nodes reachable from the root with is_end true reduced into the i32 range;
in particular the two are equal whenever that number is below 2^31 (beyond
it the source's i32 count wraps, in release builds, while the node count
keeps growing). -/
theorem count_eq_endCount_no_duplicate_adds (t : Trie) (h : ReachableND t) :
    t.count.val = i32wrap ((t.root.endCount : Int))
    ∧ (((t.root.endCount : Int) < 2147483648) →
        t.count.val = (t.root.endCount : Int)) := by
  have h1 := count_eq_endCount_reachableND t h
  refine ⟨h1, fun hu => ?_⟩
  rw [h1]
  have hnn : (0 : Int) ≤ (t.root.endCount : Int) := Int.natCast_nonneg _
  exact i32wrap_id (by omega) hu

theorem count_eq_endCount_no_duplicate_adds_witness :
    (Trie.default.add ['a']).count.val = ((Trie.default.add ['a']).root.endCount : Int) :=
  (count_eq_endCount_no_duplicate_adds (Trie.default.add ['a'])
    (ReachableP.addStep Trie.default ['a'] ReachableP.empty rfl)).2 (by decide)

theorem runOps_replicate_add_a (k : Nat) :
    ∀ t : Trie, t.root = Node.mk [('a', Node.mk [] true)] false →
      runOps t (List.replicate k (Op.addOp ['a']))
        = some (Trie.mk (Node.mk [('a', Node.mk [] true)] false)
            (i32ofInt (t.count.val + k)), k, 0) := by
  induction k with
  | zero =>
      intro t hroot
      obtain ⟨r0, c0⟩ := t
      have hr2 : r0 = Node.mk [('a', Node.mk [] true)] false := hroot
      subst hr2
      simp only [List.replicate, runOps]
      have hc : i32ofInt ((Trie.mk (Node.mk [('a', Node.mk [] true)] false) c0).count.val
            + ((0 : Nat) : Int)) = c0 := by
        apply Subtype.ext
        rw [i32ofInt_val]
        have h0 : (Trie.mk (Node.mk [('a', Node.mk [] true)] false) c0).count.val
            + ((0 : Nat) : Int) = c0.val := by
          push_cast
          ring
        rw [h0]
        exact i32wrap_id c0.2.1 c0.2.2
      rw [hc]
  | succ k ih =>
      intro t hroot
      rw [List.replicate_succ]
      simp only [runOps]
      have hrootadd : (t.add ['a']).root = Node.mk [('a', Node.mk [] true)] false := by
        have h1 : (t.add ['a']).root = t.root.addWord ['a'] := rfl
        rw [h1, hroot]
        rfl
      rw [ih (t.add ['a']) hrootadd]
      simp only [Option.map]
      have hc : i32ofInt ((t.add ['a']).count.val + ((k : Nat) : Int))
          = i32ofInt (t.count.val + (((k + 1 : Nat)) : Int)) := by
        apply Subtype.ext
        rw [i32ofInt_val, i32ofInt_val]
        have h4 : (t.add ['a']).count.val = i32wrap (t.count.val + 1) := rfl
        rw [h4, i32wrap_wrap_add]
        congr 1
        push_cast
        ring
      rw [hc]

/-- C4 (counterexample): a completed run of 2^31 adds of "a" from the empty
trie ends with count −2^31 (the i32 increment wraps in release builds), not
the 2^31 that the adds-minus-deletes claim demands. -/
theorem count_overflows_on_replicated_adds :
    runOps Trie.default (List.replicate 2147483648 (Op.addOp ['a']))
      = some (Trie.mk (Node.mk [('a', Node.mk [] true)] false)
          (i32ofInt (-2147483648)), 2147483648, 0)
    ∧ ¬ ((i32ofInt (-2147483648)).val
          = ((2147483648 : Nat) : Int) - ((0 : Nat) : Int)) := by
  constructor
  · have hstep : List.replicate (2147483648 : Nat) (Op.addOp ['a'])
        = Op.addOp ['a'] :: List.replicate 2147483647 (Op.addOp ['a']) := by
      rw [show (2147483648 : Nat) = 2147483647 + 1 from rfl, List.replicate_succ]
    rw [hstep]
    have hcons : runOps Trie.default
          (Op.addOp ['a'] :: List.replicate 2147483647 (Op.addOp ['a']))
        = (runOps (Trie.default.add ['a'])
              (List.replicate 2147483647 (Op.addOp ['a']))).map
            (fun r => (r.1, r.2.1 + 1, r.2.2)) := rfl
    rw [hcons, runOps_replicate_add_a 2147483647 (Trie.default.add ['a']) rfl]
    rfl
  · decide

/-- C4 (amended): every add performs a wrapping i32 increment of count, and a
completed run of operations from the empty trie ends with count equal to the
number of add calls minus the number of successful deletes reduced into the
i32 range — hence exactly equal whenever that difference fits in an i32. -/
theorem count_equals_adds_minus_successful_deletes :
    (∀ (t : Trie) (w : List Char), (t.add w).count.val = i32wrap (t.count.val + 1))
    ∧ ∀ (ops : List Op) (t : Trie) (a d : Nat),
        runOps Trie.default ops = some (t, a, d) →
          t.count.val = i32wrap ((a : Int) - (d : Int))
          ∧ (-2147483648 ≤ (a : Int) - (d : Int) → (a : Int) - (d : Int) < 2147483648 →
              t.count.val = (a : Int) - (d : Int)) := by
  constructor
  · intro t w
    rfl
  · intro ops t a d h
    have h1 := runOps_count ops Trie.default t a d h
    have h0 : Trie.default.count.val = 0 := rfl
    rw [h0] at h1
    have h2 : t.count.val = i32wrap ((a : Int) - (d : Int)) := by
      rw [h1]
      congr 1
      ring
    refine ⟨h2, fun hl hu => ?_⟩
    rw [h2]
    exact i32wrap_id hl hu

theorem count_equals_adds_minus_successful_deletes_witness :
    (Trie.mk (Node.mk [('b', Node.mk [] true)] false) (i32ofInt 1)).count.val
      = ((2 : Nat) : Int) - ((1 : Nat) : Int) := by
  have hdel : ((Trie.default.add ['a']).add ['b']).delete ['a']
      = DeleteOutcome.ok ⟨Node.mk [('b', Node.mk [] true)] false, i32ofInt 1⟩ := by
    rw [delete_compute _ _ (by decide)]
    rfl
  have hrun : runOps Trie.default [Op.addOp ['a'], Op.addOp ['b'], Op.delOp ['a']]
      = some (⟨Node.mk [('b', Node.mk [] true)] false, i32ofInt 1⟩, 2, 1) := by
    simp only [runOps]
    rw [hdel]
    rfl
  exact (count_equals_adds_minus_successful_deletes.2
    [Op.addOp ['a'], Op.addOp ['b'], Op.delOp ['a']] _ 2 1 hrun).2 (by decide) (by decide)

/-- C5: a delete that returns WordNotFound is atomic — the resulting trie (root
structure and count alike) is exactly the one before the call. -/
theorem delete_notfound_leaves_trie_unchanged (t t2 : Trie) (w : List Char)
    (e : TrieError) (h : t.delete w = DeleteOutcome.err e t2) : t2 = t :=
  delete_err_inv h

theorem delete_notfound_leaves_trie_unchanged_witness :
    ((Trie.default.add ['h','e','l','l','o']).delete ['t','e','s','t']
      = DeleteOutcome.err TrieError.wordNotFound
          (Trie.mk (Node.mk [('h', Node.mk [('e', Node.mk [('l', Node.mk [('l',
            Node.mk [('o', Node.mk [] true)] false)] false)] false)] false)] false) (i32ofInt 1)))
    ∧ Trie.mk (Node.mk [('h', Node.mk [('e', Node.mk [('l', Node.mk [('l',
        Node.mk [('o', Node.mk [] true)] false)] false)] false)] false)] false) (i32ofInt 1)
      = Trie.default.add ['h','e','l','l','o'] := by
  have herr : (Trie.default.add ['h','e','l','l','o']).delete ['t','e','s','t']
      = DeleteOutcome.err TrieError.wordNotFound
          (Trie.mk (Node.mk [('h', Node.mk [('e', Node.mk [('l', Node.mk [('l',
            Node.mk [('o', Node.mk [] true)] false)] false)] false)] false)] false) (i32ofInt 1)) := by
    rw [delete_compute _ _ (by decide)]
    rfl
  exact ⟨herr, delete_notfound_leaves_trie_unchanged _ _ _ _ herr⟩

/-- C6 (counterexample): adding the empty word does set the root's is_end flag
to true, so it does not remain false under every operation sequence. -/
theorem add_empty_sets_root_is_end :
    (Trie.default.add ([] : List Char)).root.is_end = true := rfl

/-- C6 (amended): along any history of adds and completed deletes that never
adds the empty word, the root's is_end flag stays false. -/
theorem root_is_end_false_without_empty_add (t : Trie) (h : ReachableNE t) :
    t.root.is_end = false :=
  root_is_end_reachableNE t h

theorem root_is_end_false_without_empty_add_witness :
    (Trie.default.add ['a']).root.is_end = false :=
  root_is_end_false_without_empty_add _
    (ReachableP.addStep _ _ ReachableP.empty (by decide))

/-- C7: search returns false as soon as a required child is absent, otherwise
returns the is_end flag of the node at the end of the path (so a stored strict
prefix never itself added searches false: anything searching true was added);
being a plain function of the trie, it performs no mutation. -/
theorem search_spec :
    (∀ (t : Trie) (c : Char) (cs : List Char),
        findChild c t.root.children = none → t.search (c :: cs) = false)
    ∧ (∀ (t : Trie) (w : List Char),
        t.search w = (match t.root.findPath w with
                      | some m => m.is_end
                      | none => false))
    ∧ ∀ (ws : List (List Char)) (w : List Char),
        (ws.foldl Trie.add Trie.default).search w = true → w ∈ ws := by
  refine ⟨?_, ?_, ?_⟩
  · intro t c cs hfc
    simp [Trie.search, Node.searchFrom, hfc]
  · intro t w
    exact searchFrom_eq_findPath t.root w
  · intro ws w h
    exact search_sound ws w h

theorem search_spec_witness :
    ((Trie.default.add ['a']).search ['b'] = false)
    ∧ (['h','e'] : List Char) ∈ [['h','e','l','l','o'], ['h','e']] :=
  ⟨search_spec.1 _ 'b' [] rfl, search_spec.2.2 [['h','e','l','l','o'], ['h','e']] ['h','e'] rfl⟩

/-- C8 (counterexample): with "éa" stored, the word "é" is not stored as a
complete entry (search misses it), yet delete("é") panics rather than
returning WordNotFound, refuting the stated equivalence. -/
theorem delete_notfound_iff_counterexample :
    (Trie.default.add ['é','a']).delete ['é'] = DeleteOutcome.panicked
    ∧ (Trie.default.add ['é','a']).search ['é'] = false := by
  constructor
  · have h0 : delete_recursive (Trie.default.add ['é','a']).root ['é'] 0
        = DelRes.panicked := by
      rw [delete_recursive_step (by decide) (rfl : (['é'] : List Char).get? 0 = some 'é')]
      have hfc : findChild 'é' (Trie.default.add ['é','a']).root.children
          = some (Node.mk [('a', Node.mk [] true)] false) := rfl
      simp only [hfc, panic_step_e]
    simp only [Trie.delete, h0]
  · rfl

/-- C8 (amended): WordNotFound always implies the word is not currently stored;
for words of single-byte characters the converse also holds, so delete fails
with WordNotFound exactly on the words search misses (in particular on a
strict prefix of a stored word that was never itself added). -/
theorem delete_notfound_iff_not_stored :
    (∀ (t t2 : Trie) (w : List Char) (e : TrieError),
        t.delete w = DeleteOutcome.err e t2 → t.search w = false)
    ∧ ∀ (t : Trie) (w : List Char), (∀ c ∈ w, c.utf8Size = 1) →
        (t.delete w).isErr = !t.search w := by
  constructor
  · intro t t2 w e h
    exact search_false_of_delete_err h
  · intro t w ha
    exact delete_isErr_ascii t w (byteLen_eq_length_of_ascii ha)

theorem delete_notfound_iff_not_stored_witness :
    ((((Trie.default.add ['h','e','l','l','o']).add ['h','e','y']).delete
        ['h','e']).isErr = true) := by
  have h := delete_notfound_iff_not_stored.2
    ((Trie.default.add ['h','e','l','l','o']).add ['h','e','y']) ['h','e'] (by decide)
  rw [h]
  rfl

/-- C9: a successful delete never disturbs other stored words: any word other
than the deleted one that searched true before still searches true after. -/
theorem delete_preserves_other_words (t t2 : Trie) (w : List Char)
    (hwf : t.root.WF) (h : t.delete w = DeleteOutcome.ok t2) :
    ∀ u, u ≠ w → t.search u = true → t2.search u = true := by
  intro u hne hu
  rw [search_delete_ok hwf h u, hu]
  simp [hne]

theorem delete_preserves_other_words_witness :
    (Trie.mk (Node.mk [('h', Node.mk [('e', Node.mk [('y',
        Node.mk [] true)] false)] false)] false) (i32ofInt 1)).search ['h','e','y'] = true := by
  have hdel : ((Trie.default.add ['h','e','l','l','o']).add ['h','e','y']).delete
        ['h','e','l','l','o']
      = DeleteOutcome.ok (Trie.mk (Node.mk [('h', Node.mk [('e', Node.mk [('y',
          Node.mk [] true)] false)] false)] false) (i32ofInt 1)) := by
    rw [delete_compute _ _ (by decide)]
    rfl
  exact delete_preserves_other_words _ _ _
    (wf_addWord ['h','e','y'] (wf_addWord ['h','e','l','l','o'] wf_leaf))
    hdel ['h','e','y'] (by decide) rfl

/-- C10: in every state reachable from the empty trie by adds and completed
deletes, no node other than the root is both non-end and childless. -/
theorem no_dead_leaves_in_reachable_states (t : Trie) (h : Reachable t) :
    NoDeadLeaves t.root :=
  ndl_reachable t h

theorem no_dead_leaves_in_reachable_states_witness :
    NoDeadLeaves (Trie.mk (Node.mk [('h', Node.mk [('e', Node.mk [('y',
        Node.mk [] true)] false)] false)] false) (i32ofInt 1)).root := by
  have hdel : ((Trie.default.add ['h','e','l','l','o']).add ['h','e','y']).delete
        ['h','e','l','l','o']
      = DeleteOutcome.ok (Trie.mk (Node.mk [('h', Node.mk [('e', Node.mk [('y',
          Node.mk [] true)] false)] false)] false) (i32ofInt 1)) := by
    rw [delete_compute _ _ (by decide)]
    rfl
  exact no_dead_leaves_in_reachable_states _
    (ReachableP.delOk _ _ ['h','e','l','l','o']
      (ReachableP.addStep _ _
        (ReachableP.addStep _ _ ReachableP.empty True.intro) True.intro)
      hdel)
